import Mathlib

/-!
Verification of the AllergyGuard AI repository against its specification.

The development shallowly embeds the program's code:
* `server/server.js` — the `POST /nutrition` Express handler with its
  in-memory five-minute cache (`nutritionHandler`, `cacheGet`, `cacheSet`, …);
* the client component (`AllergyGuardAIApp.tsx`) — the badge classifier
  (`classifyCarbs`), the allergen catalog (`ALLERGENS`), the localStorage
  profile store (`loadProfile`/`saveProfile`), the OpenFoodFacts search
  post-processing (`searchResults`), the risk detector (`riskFor`) and the
  ingredient highlighter (`highlight`).

JavaScript runtime primitives used by the code (string `trim`/`toLowerCase`/
`includes`, the regex `\b(k1|k2|…)\b` with flags `gi` used by `highlight`,
`JSON.parse`, object spread) are modelled by executable Lean functions whose
behaviour matches the JS semantics on the values the program exercises.
External HTTP services (USDA search/detail) are parameters of the handler.
-/

/-! ### JavaScript string primitives -/

/-- Whitespace recognised by JavaScript `String.prototype.trim`
(ASCII whitespace plus NBSP and BOM; the program only ever meets ASCII). -/
def jsWhitespace (c : Char) : Bool :=
  c = ' ' || c = '\t' || c = '\n' || c = '\r' ||
  c = (Char.ofNat 0x0b) || c = (Char.ofNat 0x0c) ||
  c = (Char.ofNat 0xa0) || c = (Char.ofNat 0xfeff)

/-- `String.prototype.trim`: strip leading and trailing whitespace. -/
def jsTrim (s : String) : String :=
  String.mk (((s.toList.dropWhile jsWhitespace).reverse.dropWhile jsWhitespace).reverse)

/-- `String.prototype.toLowerCase`, on the ASCII data this program handles. -/
def jsToLower (s : String) : String :=
  String.mk (s.toList.map Char.toLower)

/-- Does `hay` start with `pat`? (helper for the substring test). -/
def startsWithL : List Char → List Char → Bool
  | _, [] => true
  | [], _ :: _ => false
  | h :: hs, p :: ps => h = p && startsWithL hs ps

/-- `String.prototype.includes`, on character lists: `pat` occurs as a
contiguous substring of `hay`. -/
def containsSub : List Char → List Char → Bool
  | [], pat => startsWithL [] pat
  | h :: hs, pat => startsWithL (h :: hs) pat || containsSub hs pat

/-- `Array.prototype.join(sep)`. -/
def joinSep (sep : String) : List String → String
  | [] => ""
  | [x] => x
  | x :: y :: rest => x ++ sep ++ joinSep sep (y :: rest)

/-! ### Server: data and cache (`server/server.js`) -/

/-- The record produced by the `/nutrition` route (`out` in `server.js`).
Nutrient quantities are modelled as integers (the route rounds them before
responding). -/
structure NutritionOut where
  source : String
  matchType : String
  serving_desc : String
  calories_kcal : Int
  carbs_g : Int
  sugar_g : Int
  raw_name : String
deriving DecidableEq, Repr

/-- A cache slot: `{ data, t }` with `t` the write timestamp (ms). -/
structure CacheEntry where
  data : NutritionOut
  t : Nat
deriving DecidableEq, Repr

/-- The in-memory `Map` of `server.js`, as an association list with unique
keys (insertion order preserved, as a JS `Map` does). -/
abbrev Cache := List (String × CacheEntry)

/-- `Map.prototype.get`. -/
def cacheLookup : Cache → String → Option CacheEntry
  | [], _ => none
  | kv :: rest, k => if kv.1 = k then some kv.2 else cacheLookup rest k

/-- `Map.prototype.delete`. -/
def cacheErase : Cache → String → Cache
  | [], _ => []
  | kv :: rest, k => if kv.1 = k then cacheErase rest k else kv :: cacheErase rest k

/-- `Map.prototype.set`: update in place if the key exists, else append. -/
def cacheSet : Cache → String → CacheEntry → Cache
  | [], k, v => [(k, v)]
  | kv :: rest, k, v => if kv.1 = k then (k, v) :: rest else kv :: cacheSet rest k v

/-- The cache reader `get` of `server.js`: a missing key yields `null`; an
entry older than five minutes is deleted and `null` is returned; otherwise
the stored data is returned.  The (possibly shrunk) cache is returned too. -/
def cacheGet (c : Cache) (k : String) (now : Nat) : Option NutritionOut × Cache :=
  match cacheLookup c k with
  | none => (none, c)
  | some v => if now - v.t > 5 * 60 * 1000 then (none, cacheErase c k) else (some v.data, c)

/-! ### Server: upstream payload shapes and nutrient extraction -/

/-- One element of `sj.foods` from the USDA search response. -/
structure Food where
  fdcId : Nat
  dataType : String
  description : Option String
deriving DecidableEq, Repr

/-- `d.labelNutrients`: each field carries an optional numeric `value`
(a missing or non-numeric value feeds `num`, which yields 0). -/
structure LabelNutrients where
  calories : Option Int
  carbohydrates : Option Int
  sugars : Option Int
deriving DecidableEq, Repr

/-- One element of `d.foodNutrients`: `n?.nutrient?.number` (already
stringified) and `n?.amount`. -/
structure FoodNutrient where
  number : Option String
  amount : Option Int
deriving DecidableEq, Repr

/-- The USDA detail document `d` for the picked food. -/
structure FoodDetail where
  labelNutrients : Option LabelNutrients
  foodNutrients : List FoodNutrient
  brandOwner : Option String
  householdServingFullText : Option String
  servingSize : Option Int
  servingSizeUnit : Option String
  description : Option String
deriving DecidableEq, Repr

/-- Calories/carbs/sugars triple extracted by the route. -/
structure Nutrients where
  calories : Int
  carbs : Int
  sugars : Int
deriving DecidableEq, Repr

/-- `num(x)`: a present numeric value passes through, anything else is 0. -/
def num (x : Option Int) : Int := x.getD 0

/-- `fromLabel(ln)` of `server.js`. -/
def fromLabel (ln : LabelNutrients) : Nutrients :=
  { calories := num ln.calories, carbs := num ln.carbohydrates, sugars := num ln.sugars }

/-- `fromNutrients(list)` of `server.js`: for each fixed code take the first
entry whose stringified nutrient number equals the stringified code, then its
amount (0 when absent). `String(undefined)` is `"undefined"`. -/
def findNutrient (list : List FoodNutrient) (code : Nat) : Int :=
  num ((list.find? (fun n => n.number.getD "undefined" = toString code)).bind (·.amount))

/-- `fromNutrients(list)` of `server.js`. -/
def fromNutrients (list : List FoodNutrient) : Nutrients :=
  { calories := findNutrient list 1008
    carbs := findNutrient list 1005
    sugars := findNutrient list 2000 }

/-! ### Server: the `/nutrition` route -/

/-- The JSON request body `{ name?, brand? }`. -/
structure ReqBody where
  name : Option String
  brand : Option String
deriving DecidableEq, Repr

/-- `const name = (req.body?.name || '').trim()`. -/
def reqName (b : ReqBody) : String := jsTrim (b.name.getD "")

/-- `const brand = (req.body?.brand || '').trim()`. -/
def reqBrand (b : ReqBody) : String := jsTrim (b.brand.getD "")

/-- `const q = [brand, name].filter(Boolean).join(' ').trim() || name`. -/
def reqQuery (b : ReqBody) : String :=
  let j := jsTrim (joinSep " " (([reqBrand b, reqName b].filter (fun s => s ≠ ""))))
  if j = "" then reqName b else j

/-- `` const cacheKey = `USDA::${q.toLowerCase()}` ``. -/
def cacheKeyOf (b : ReqBody) : String := "USDA::" ++ jsToLower (reqQuery b)

/-- An HTTP response of the route: 200 with a nutrition record, or a
status code with `{ error: … }`. -/
inductive Resp where
  | ok (body : NutritionOut)
  | err (status : Nat) (error : String)
deriving DecidableEq, Repr

/-- Is the response an error response? -/
def Resp.isErr : Resp → Bool
  | .ok _ => false
  | .err _ _ => true

/-- Outcome of one `/nutrition` request: the response, the cache afterwards,
whether the upstream USDA search endpoint was queried, and whether the
response was served from the cache. -/
structure HResult where
  resp : Resp
  cache : Cache
  upstreamCalled : Bool
  servedFromCache : Bool
deriving DecidableEq, Repr

/-- `matchType` computation of the route: with a brand, `"exact"` when the
returned `brandOwner` contains the requested brand case-insensitively, else
`"likely"`; without a brand, `"generic"`. -/
def matchTypeOf (brand : String) (d : FoodDetail) : String :=
  if brand ≠ "" then
    if containsSub (jsToLower (d.brandOwner.getD "")).toList (jsToLower brand).toList
    then "exact" else "likely"
  else "generic"

/-- `serving_desc` computation: household serving text if non-empty, else
`"<size> <unit>"` when both are present and truthy, else `"100 g"`
(JS `||`/`&&` treat the empty string and the number 0 as false). -/
def servingDescOf (d : FoodDetail) : String :=
  if d.householdServingFullText.getD "" ≠ "" then d.householdServingFullText.getD ""
  else
    match d.servingSize, d.servingSizeUnit with
    | some sz, some u => if sz ≠ 0 ∧ u ≠ "" then toString sz ++ " " ++ u else "100 g"
    | _, _ => "100 g"

/-- `raw_name` computation: `d.description || pick.description || ''`. -/
def rawNameOf (d : FoodDetail) (pick : Food) : String :=
  if d.description.getD "" ≠ "" then d.description.getD ""
  else pick.description.getD ""

/-- The `POST /nutrition` handler of `server.js`.

* `usdaKey` models `process.env.USDA_API_KEY`; an unset or empty variable is
  falsy in JS, modelled as `""`.
* `searchResp` models the upstream `foods/search` call: `none` when the HTTP
  call fails (`!s.ok`, which throws `search_failed` and lands in the `catch`);
  `some hits` is `sj.foods` (a non-array `foods` behaves as `some []`).
* `detailResp` models the per-`fdcId` detail fetch; `none` is a failing call
  (which also lands in the `catch`). -/
def nutritionHandler (usdaKey : String) (body : ReqBody) (cache : Cache) (now : Nat)
    (searchResp : Option (List Food)) (detailResp : Nat → Option FoodDetail) : HResult :=
  if usdaKey = "" then
    { resp := .err 500 "USDA_API_KEY missing in .env", cache := cache,
      upstreamCalled := false, servedFromCache := false }
  else if reqName body = "" then
    { resp := .err 400 "name required", cache := cache,
      upstreamCalled := false, servedFromCache := false }
  else
    match cacheGet cache (cacheKeyOf body) now with
    | (some data, c1) =>
      { resp := .ok data, cache := c1, upstreamCalled := false, servedFromCache := true }
    | (none, c1) =>
      match searchResp with
      | none =>
        { resp := .err 500 "server_error", cache := c1,
          upstreamCalled := true, servedFromCache := false }
      | some [] =>
        { resp := .err 404 "not_found", cache := c1,
          upstreamCalled := true, servedFromCache := false }
      | some (h :: t) =>
        let pick := if reqBrand body ≠ ""
          then ((h :: t).find? (fun f => f.dataType = "Branded")).getD h
          else h
        match detailResp pick.fdcId with
        | none =>
          { resp := .err 500 "server_error", cache := c1,
            upstreamCalled := true, servedFromCache := false }
        | some d =>
          let nutrients :=
            match d.labelNutrients with
            | some ln => fromLabel ln
            | none => fromNutrients d.foodNutrients
          let out : NutritionOut :=
            { source := "usda"
              matchType := matchTypeOf (reqBrand body) d
              serving_desc := servingDescOf d
              calories_kcal := nutrients.calories
              carbs_g := nutrients.carbs
              sugar_g := nutrients.sugars
              raw_name := rawNameOf d pick }
          { resp := .ok out, cache := cacheSet c1 (cacheKeyOf body) ⟨out, now⟩,
            upstreamCalled := true, servedFromCache := false }

/-! ### Client: dietary badge classifier -/

/-- The display record returned by `classifyCarbs`. -/
structure Badge where
  label : String
  color : String
  bg : String
deriving DecidableEq, Repr

/-- `classifyCarbs(carbs)` of the client app.  The carbohydrate values it is
fed (`nutrition.carbs_g`) are integers, rounded by the server. -/
def classifyCarbs (carbs : Int) : Badge :=
  if carbs > 30 then { label := "Avoid", color := "#d33", bg := "#ffecec" }
  else if carbs ≥ 15 then { label := "Limit", color := "#a96d00", bg := "#fff4d6" }
  else { label := "Eat", color := "#1a7f37", bg := "#e9f7ef" }

/-! ### Client: allergen catalog -/

/-- One entry of the `ALLERGENS` table: a category key and its keyword
variants. -/
structure Allergen where
  key : String
  labels : List String
deriving DecidableEq, Repr

/-- The static `ALLERGENS` table of the client app (12 categories). -/
def ALLERGENS : List Allergen :=
  [ ⟨"peanut", ["peanut", "groundnut", "arachis"]⟩,
    ⟨"tree_nuts", ["almond", "walnut", "pecan", "hazelnut", "pistachio", "cashew",
                   "brazil nut", "macadamia"]⟩,
    ⟨"milk", ["milk", "dairy", "casein", "whey", "lactose"]⟩,
    ⟨"egg", ["egg", "albumen", "ovalbumin"]⟩,
    ⟨"gluten", ["gluten", "wheat", "barley", "rye", "spelt", "malt"]⟩,
    ⟨"soy", ["soy", "soya", "soybean", "lecithin (soya)"]⟩,
    ⟨"sesame", ["sesame", "tahini", "sesamum"]⟩,
    ⟨"fish", ["fish", "anchovy", "cod", "salmon", "tuna"]⟩,
    ⟨"shellfish", ["shrimp", "prawn", "crab", "lobster", "oyster", "clam",
                   "mussel", "scallop"]⟩,
    ⟨"mustard", ["mustard"]⟩,
    ⟨"celery", ["celery"]⟩,
    ⟨"sulfites", ["sulphite", "sulfite", "e220", "e221", "e222", "e223", "e224",
                  "e226", "e227", "e228"]⟩ ]

/-- The 12 category identifiers. -/
def allergenKeys : List String := ALLERGENS.map (·.key)

/-! ### Client: allergen profile store -/

/-- The user's profile `Record<string, boolean>`, as an association list
with unique keys in insertion order (a JS object). -/
abbrev Profile := List (String × Bool)

/-- `profile[k]` with JS truthiness: an absent key reads as `false`. -/
def profileGet (p : Profile) (k : String) : Bool :=
  match p with
  | [] => false
  | kv :: rest => if kv.1 = k then kv.2 else profileGet rest k

/-- JS object spread `{ ...prev, [k]: b }`: update the key in place if
present, otherwise append it. -/
def setKey : Profile → String → Bool → Profile
  | [], k, b => [(k, b)]
  | kv :: rest, k, b => if kv.1 = k then (k, b) :: rest else kv :: setKey rest k b

/-- `selectAllAllergens` builds a fresh object with every catalog key set
to `true` (insertion order of the catalog). -/
def selectAllAllergens : Profile := ALLERGENS.map (fun a => (a.key, true))

/-- `deselectAllAllergens` builds a fresh object with every catalog key set
to `false`. -/
def deselectAllAllergens : Profile := ALLERGENS.map (fun a => (a.key, false))

/-- A JSON value, the result type of `JSON.parse`. -/
inductive Json where
  | null
  | bool (b : Bool)
  | num (n : Int)
  | str (s : String)
  | arr (xs : List Json)
  | obj (fields : List (String × Json))

/-- The state of `localStorage.getItem("allergyguardai_profile")` as seen
through `JSON.parse`: no stored value, a stored string that fails to parse
(`JSON.parse` throws), or a stored string parsing to a JSON value. -/
inductive Persisted where
  | absent
  | malformed
  | wellFormed (j : Json)

/-- `loadProfile` of the client app:
`try { return JSON.parse(localStorage.getItem(…) || "{}") } catch { return {} }`.
A missing item reads the literal `"{}"` (the empty object); a parse failure
is caught and yields the empty object; a successful parse is returned as-is,
with no shape validation.  The function is total: it never raises. -/
def loadProfile : Persisted → Json
  | .absent => Json.obj []
  | .malformed => Json.obj []
  | .wellFormed j => j

/-- Serialization of a profile object, as `JSON.stringify` produces it. -/
def profileToJson (p : Profile) : Json :=
  Json.obj (p.map (fun kv => (kv.1, Json.bool kv.2)))

/-- `saveProfile(p)`: `localStorage.setItem(…, JSON.stringify(p))`.
`JSON.stringify` of a boolean record is always well-formed JSON that parses
back to the same object. -/
def saveProfile (p : Profile) : Persisted := .wellFormed (profileToJson p)

/-- Read a parsed JSON value back as the typed profile the client state
holds: the boolean fields of an object, anything else contributing nothing. -/
def profileOfJson : Json → Profile
  | .obj fields => fields.filterMap (fun kv =>
      match kv.2 with
      | .bool b => some (kv.1, b)
      | _ => none)
  | _ => []

/-! ### Client: product search post-processing -/

/-- A raw OpenFoodFacts search result (the fields the code reads). -/
structure RawProduct where
  code : String
  product_name : Option String
  brands : Option String
  ingredients_text : Option String
  allergens_tags : Option (List String)
deriving DecidableEq, Repr

/-- The client `Product` shape. -/
structure Product where
  code : String
  product_name : Option String
  brands : Option String
  ingredients_text : Option String
  allergens_tags : Option (List String)
deriving DecidableEq, Repr

/-- A product's display name, absent read as `""`. -/
def prodName (p : Product) : String := p.product_name.getD ""

/-- The client post-filter:
`p.product_name && p.product_name.toLowerCase().includes(q.toLowerCase())`. -/
def searchFilter (q : String) (ps : List RawProduct) : List RawProduct :=
  ps.filter (fun p =>
    match p.product_name with
    | none => false
    | some n => n ≠ "" && containsSub (jsToLower n).toList (jsToLower q).toList)

/-- The per-result normalization: keep only `en:`-prefixed allergen tags and
strip the three-character language marker. -/
def toProduct (p : RawProduct) : Product :=
  { code := p.code
    product_name := p.product_name
    brands := p.brands
    ingredients_text := p.ingredients_text
    allergens_tags := some (((p.allergens_tags.getD []).filter
      (fun t => startsWithL t.toList "en:".toList)).map
      (fun t => String.mk (t.toList.drop 3))) }

/-- The filtered and normalized candidate list (`prods` in the code). -/
def searchCandidates (q : String) (ps : List RawProduct) : List Product :=
  (searchFilter q ps).map toProduct

/-- The `uniqueProdsMap` pass: walk the candidates, keeping a product when
its name is non-empty and not yet seen (`Map` insertion order, first
occurrence wins). -/
def dedupByName : List Product → List String → List Product
  | [], _ => []
  | p :: rest, seen =>
    if prodName p ≠ "" ∧ prodName p ∉ seen
    then p :: dedupByName rest (prodName p :: seen)
    else dedupByName rest seen

/-- `search(q)` result computation of the client app: a blank query clears
the results without a request; otherwise filter, normalize, deduplicate by
display name and keep the first five. -/
def searchResults (q : String) (ps : List RawProduct) : List Product :=
  if jsTrim q = "" then [] else (dedupByName (searchCandidates q ps) []).take 5

/-! ### Client: allergen risk detector -/

/-- `selectedLabels`: the keyword variants of every selected category, in
catalog order. -/
def selectedLabels (profile : Profile) : List String :=
  (ALLERGENS.filter (fun a => profileGet profile a.key)).flatMap (·.labels)

/-- Characters matched by `.` in a JS regex without the `s` flag
(anything but a line terminator). -/
def jsDotChar (c : Char) : Bool :=
  c ≠ '\n' && c ≠ '\r' && c ≠ (Char.ofNat 0x2028) && c ≠ (Char.ofNat 0x2029)

/-- `t.replace(/^..:/, "")`: strip a leading two-character namespace and
colon when present. -/
def stripTagNs (t : String) : String :=
  match t.toList with
  | c1 :: c2 :: ':' :: rest => if jsDotChar c1 && jsDotChar c2 then String.mk rest else t
  | _ => t

/-- The result of `riskFor`: matched keyword/tag strings and the risk flag. -/
structure RiskResult where
  hits : List String
  hasRisk : Bool
deriving DecidableEq, Repr

/-- `riskFor(p)` of the client app: keyword variants of selected categories
matched as case-insensitive substrings of the ingredient text, united with
normalized allergen tags that name a selected category or one of its
variants; duplicates removed with first occurrence kept (`new Set`). -/
def riskFor (profile : Profile) (p : Option Product) : RiskResult :=
  match p with
  | none => { hits := [], hasRisk := false }
  | some p =>
    let ing := jsToLower (p.ingredients_text.getD "")
    let hits := (selectedLabels profile).filter
      (fun lbl => containsSub ing.toList (jsToLower lbl).toList)
    let tagHits := ((p.allergens_tags.getD []).map stripTagNs).filter
      (fun t => ALLERGENS.any (fun a =>
        profileGet profile a.key && (a.key = t || a.labels.contains t)))
    let uniq := (hits ++ tagHits).eraseDups
    { hits := uniq, hasRisk := decide (0 < uniq.length) }

/-! ### Client: ingredient highlighter

`highlight(text, needles)` escapes each needle and runs
`text.replace(new RegExp("\\b(" + safe.join("|") + ")\\b", "gi"), wrap)`.
The model below implements the semantics of that regex replace:

* each alternative of the group is a literal string (the escaping makes the
  needle text literal), tried in list order at every position;
* `\b` holds between a word character (`[A-Za-z0-9_]`) and a non-word
  character or string edge;
* the `g` flag scans left to right, resuming after each match; an empty
  match advances by one character (as `String.prototype.replace` does);
* the `i` flag compares characters case-insensitively;
* joining an empty needle array produces the empty pattern `\b()\b`, whose
  single empty alternative matches at every word boundary. -/

/-- Word characters of the regex `\b` assertion (`\w`). -/
def wordChar (c : Char) : Bool :=
  ('a' ≤ c && c ≤ 'z') || ('A' ≤ c && c ≤ 'Z') || ('0' ≤ c && c ≤ '9') || c = '_'

/-- Word-ness of the character on one side of a position (edge = non-word). -/
def isWordOpt : Option Char → Bool
  | none => false
  | some c => wordChar c

/-- The `\b` assertion between a left and a right neighbour. -/
def boundary (l r : Option Char) : Bool := isWordOpt l != isWordOpt r

/-- Match a literal alternative case-insensitively at the head of the input,
returning the consumed original characters and the rest. -/
def matchLit : List Char → List Char → Option (List Char × List Char)
  | [], cs => some ([], cs)
  | _ :: _, [] => none
  | p :: ps, c :: cs =>
    if c.toLower = p.toLower then
      match matchLit ps cs with
      | some (m, r) => some (c :: m, r)
      | none => none
    else none

/-- The character just left of the position after a match. -/
def endPrev (prev : Option Char) (m : List Char) : Option Char :=
  match m.getLast? with
  | some c => some c
  | none => prev

/-- Try the alternatives in order at the current position; an alternative
succeeds when its literal matches and the trailing `\b` holds. -/
def matchAlts (alts : List (List Char)) (prev : Option Char) (cs : List Char) :
    Option (List Char × List Char) :=
  match alts with
  | [] => none
  | a :: rest =>
    match matchLit a cs with
    | some (m, r) =>
      if boundary (endPrev prev m) r.head? then some (m, r) else matchAlts rest prev cs
    | none => matchAlts rest prev cs

/-- A whole-pattern match at the current position: the leading `\b` must
hold, then some alternative with its trailing `\b`. -/
def matchHere (alts : List (List Char)) (prev : Option Char) (cs : List Char) :
    Option (List Char × List Char) :=
  if boundary prev cs.head? then matchAlts alts prev cs else none

/-- The global replace scan, producing the output as pieces: `(true, m)` is
a match `m` to be wrapped, `(false, [c])` a copied character.  After an
empty match the scan advances one character; after a non-empty match it
resumes at the match end.  `fuel` bounds the recursion; `cs.length + 1` is
always enough because every recursive call strictly shrinks `cs`. -/
def hlScan : Nat → List (List Char) → Option Char → List Char → List (Bool × List Char)
  | 0, _, _, _ => []
  | fuel + 1, alts, prev, cs =>
    match matchHere alts prev cs with
    | some ([], _) =>
      (true, []) ::
        (match cs with
         | [] => []
         | c :: rest => (false, [c]) :: hlScan fuel alts (some c) rest)
    | some (m1 :: ms, r) =>
      (true, m1 :: ms) :: hlScan fuel alts (endPrev prev (m1 :: ms)) r
    | none =>
      match cs with
      | [] => []
      | c :: rest => (false, [c]) :: hlScan fuel alts (some c) rest

/-- The opening wrapper emitted around a match. -/
def openTag : List Char := "<mark style=\"background:#ffcccc\">".toList

/-- The closing wrapper emitted around a match. -/
def closeTag : List Char := "</mark>".toList

/-- Flatten the scan pieces into the output character stream. -/
def renderPieces (ps : List (Bool × List Char)) : List Char :=
  ps.flatMap (fun p => if p.1 then openTag ++ p.2 ++ closeTag else p.2)

/-- `highlight(text, needles)` of the client app.  `if (!text) return ""`;
otherwise run the global case-insensitive word-boundary replace.  Joining an
empty needle list yields the pattern `\b()\b` with one empty alternative. -/
def highlight (text : String) (needles : List String) : String :=
  if text = "" then ""
  else
    let alts := if needles.isEmpty then [([] : List Char)] else needles.map (·.toList)
    String.mk (renderPieces (hlScan (text.toList.length + 1) alts none text.toList))

/-! ### Supporting lemmas: cache behaviour of the `/nutrition` route -/

/-- A fresh hit makes `cacheGet` return the stored data with no eviction. -/
theorem cacheGet_hit {c : Cache} {k : String} {now : Nat} {e : CacheEntry}
    (hl : cacheLookup c k = some e) (hf : now - e.t ≤ 5 * 60 * 1000) :
    cacheGet c k now = (some e.data, c) := by
  simp only [cacheGet, hl]
  rw [if_neg (by omega)]

/-- An expired entry makes `cacheGet` miss and evict it. -/
theorem cacheGet_expired {c : Cache} {k : String} {now : Nat} {e : CacheEntry}
    (hl : cacheLookup c k = some e) (hf : 5 * 60 * 1000 < now - e.t) :
    cacheGet c k now = (none, cacheErase c k) := by
  simp only [cacheGet, hl]
  rw [if_pos (by omega)]

/-- An absent key makes `cacheGet` miss without touching the cache. -/
theorem cacheGet_absent {c : Cache} {k : String} {now : Nat}
    (hl : cacheLookup c k = none) :
    cacheGet c k now = (none, c) := by
  simp only [cacheGet, hl]

/-- After a cache miss, every branch of the route queries the upstream search
endpoint and none serves from the cache. -/
theorem nutritionHandler_miss_flags {key : String} {body : ReqBody} {cache c1 : Cache}
    {now : Nat} {sr : Option (List Food)} {dr : Nat → Option FoodDetail}
    (hk : key ≠ "") (hn : reqName body ≠ "")
    (hg : cacheGet cache (cacheKeyOf body) now = (none, c1)) :
    (nutritionHandler key body cache now sr dr).upstreamCalled = true ∧
    (nutritionHandler key body cache now sr dr).servedFromCache = false := by
  simp only [nutritionHandler, if_neg hk, if_neg hn, hg]
  cases sr with
  | none => exact ⟨rfl, rfl⟩
  | some hits =>
    cases hits with
    | nil => exact ⟨rfl, rfl⟩
    | cons h t =>
      dsimp only
      split <;> exact ⟨rfl, rfl⟩

/-! ### C1 — error responses of `POST /nutrition` -/

/-- C1 counterexample: a request whose `name` is blank (whitespace-only) but
sent to a server whose `USDA_API_KEY` is not configured is answered with
HTTP 500 `USDA_API_KEY missing in .env`, not with the HTTP 400
`name required` the claim demands for every blank-name request: the key
check precedes the name check. -/
theorem c1_blank_name_unconfigured_key_gives_500 :
    (nutritionHandler "" { name := some "   ", brand := none } [] 0 none
      (fun _ => none)).resp = Resp.err 500 "USDA_API_KEY missing in .env" ∧
    (nutritionHandler "" { name := some "   ", brand := none } [] 0 none
      (fun _ => none)).resp ≠ Resp.err 400 "name required" := by
  exact ⟨rfl, by decide⟩

/-- C1 (amended): whenever the server's `USDA_API_KEY` is not configured the
endpoint fails with HTTP 500 `{ error: "USDA_API_KEY missing in .env" }`
regardless of the body; and when the key is configured, a request whose
`name` is blank (missing, empty, or whitespace-only after trimming) fails
with HTTP 400 `{ error: "name required" }`.  The key check runs first. -/
theorem c1_error_responses :
    ∀ (body : ReqBody) (cache : Cache) (now : Nat) (sr : Option (List Food))
      (dr : Nat → Option FoodDetail),
      (nutritionHandler "" body cache now sr dr).resp =
        Resp.err 500 "USDA_API_KEY missing in .env" ∧
      (∀ key : String, key ≠ "" → reqName body = "" →
        (nutritionHandler key body cache now sr dr).resp =
          Resp.err 400 "name required") := by
  intro body cache now sr dr
  constructor
  · simp [nutritionHandler]
  · intro key hk hn
    simp only [nutritionHandler, if_neg hk, hn]
    rw [if_pos trivial]

/-- C1 witness: concrete instances of both amended branches. -/
theorem c1_error_responses_witness :
    (nutritionHandler "" { name := some "Oreos", brand := none } [] 0 none
      (fun _ => none)).resp = Resp.err 500 "USDA_API_KEY missing in .env" ∧
    (nutritionHandler "k1" { name := some " ", brand := none } [] 0 none
      (fun _ => none)).resp = Resp.err 400 "name required" :=
  ⟨(c1_error_responses { name := some "Oreos", brand := none } [] 0 none
      (fun _ => none)).1,
   (c1_error_responses { name := some " ", brand := none } [] 0 none
      (fun _ => none)).2 "k1" (by decide) (by decide)⟩

/-! ### C2 — the five-minute cache discipline -/

/-- C2: on a valid request (key configured, non-blank name), a cache entry
for the request's key that is not older than five minutes is returned as-is
with no upstream call; an entry older than five minutes, or no entry at all,
makes the route query the upstream search endpoint instead of serving from
the cache. -/
theorem c2_cache_freshness :
    ∀ (key : String) (body : ReqBody) (cache : Cache) (now : Nat)
      (sr : Option (List Food)) (dr : Nat → Option FoodDetail) (e : CacheEntry),
      key ≠ "" → reqName body ≠ "" →
      (cacheLookup cache (cacheKeyOf body) = some e → now - e.t ≤ 5 * 60 * 1000 →
        nutritionHandler key body cache now sr dr =
          { resp := .ok e.data, cache := cache,
            upstreamCalled := false, servedFromCache := true }) ∧
      (cacheLookup cache (cacheKeyOf body) = some e → 5 * 60 * 1000 < now - e.t →
        (nutritionHandler key body cache now sr dr).upstreamCalled = true ∧
        (nutritionHandler key body cache now sr dr).servedFromCache = false) ∧
      (cacheLookup cache (cacheKeyOf body) = none →
        (nutritionHandler key body cache now sr dr).upstreamCalled = true ∧
        (nutritionHandler key body cache now sr dr).servedFromCache = false) := by
  intro key body cache now sr dr e hk hn
  refine ⟨?_, ?_, ?_⟩
  · intro hl hf
    simp only [nutritionHandler, if_neg hk, if_neg hn, cacheGet_hit hl hf]
  · intro hl hf
    exact nutritionHandler_miss_flags hk hn (cacheGet_expired hl hf)
  · intro hl
    exact nutritionHandler_miss_flags hk hn (cacheGet_absent hl)

/-- C2 witness: a 100 ms old entry is served back unchanged with no
upstream call. -/
theorem c2_cache_freshness_witness :
    nutritionHandler "K" { name := some "milk", brand := none }
      [("USDA::milk", ⟨⟨"usda", "generic", "100 g", 1, 2, 3, ""⟩, 100⟩)] 200
      none (fun _ => none) =
      { resp := .ok ⟨"usda", "generic", "100 g", 1, 2, 3, ""⟩,
        cache := [("USDA::milk", ⟨⟨"usda", "generic", "100 g", 1, 2, 3, ""⟩, 100⟩)],
        upstreamCalled := false, servedFromCache := true } :=
  ((c2_cache_freshness "K" { name := some "milk", brand := none }
      [("USDA::milk", ⟨⟨"usda", "generic", "100 g", 1, 2, 3, ""⟩, 100⟩)] 200
      none (fun _ => none) ⟨⟨"usda", "generic", "100 g", 1, 2, 3, ""⟩, 100⟩
      (by decide) (by decide)).1 (by decide) (by decide))

/-! ### C3 — badge classifier thresholds -/

/-- C3: for every carbohydrate amount, strictly more than 30 g classifies as
`Avoid`, 15–30 g inclusive as `Limit`, below 15 g as `Eat`; in particular
10 → `Eat`, 15 → `Limit`, 30 → `Limit`, 31 → `Avoid`. -/
theorem c3_classifyCarbs_thresholds :
    ∀ c : Int,
      (30 < c → (classifyCarbs c).label = "Avoid") ∧
      (15 ≤ c ∧ c ≤ 30 → (classifyCarbs c).label = "Limit") ∧
      (c < 15 → (classifyCarbs c).label = "Eat") ∧
      (classifyCarbs 10).label = "Eat" ∧
      (classifyCarbs 15).label = "Limit" ∧
      (classifyCarbs 30).label = "Limit" ∧
      (classifyCarbs 31).label = "Avoid" := by
  intro c
  refine ⟨?_, ?_, ?_, by decide, by decide, by decide, by decide⟩
  · intro h
    unfold classifyCarbs
    rw [if_pos (by omega)]
  · intro h
    unfold classifyCarbs
    rw [if_neg (by omega), if_pos (by omega)]
  · intro h
    unfold classifyCarbs
    rw [if_neg (by omega), if_neg (by omega)]

/-- C3 witness: the three threshold branches at concrete inputs. -/
theorem c3_classifyCarbs_thresholds_witness :
    (classifyCarbs 31).label = "Avoid" ∧
    (classifyCarbs 20).label = "Limit" ∧
    (classifyCarbs 7).label = "Eat" :=
  ⟨(c3_classifyCarbs_thresholds 31).1 (by decide),
   (c3_classifyCarbs_thresholds 20).2.1 (by decide),
   (c3_classifyCarbs_thresholds 7).2.2.1 (by decide)⟩

/-! ### C7 — loading the persisted profile -/

/-- C7 counterexample: a persisted value that is well-formed JSON but not a
profile mapping (the number `5`, i.e. a stored string `"5"`) is returned
as-is by `loadProfile` — it is neither the empty mapping nor any mapping at
all, where the claim demands an empty mapping for persisted values that are
not valid structured profile data. -/
theorem c7_wellformed_nonobject_returned :
    loadProfile (.wellFormed (Json.num 5)) = Json.num 5 ∧
    loadProfile (.wellFormed (Json.num 5)) ≠ Json.obj [] ∧
    ¬ ∃ fields, loadProfile (.wellFormed (Json.num 5)) = Json.obj fields := by
  refine ⟨rfl, fun h => Json.noConfusion h, ?_⟩
  rintro ⟨fields, h⟩
  exact Json.noConfusion h

/-- C7 (amended): `load()` never raises (it is total); a profile saved by
`save` is loaded back intact; a missing value and a value that fails to
parse both yield the empty mapping; but a well-formed persisted value is
returned as parsed, with no shape validation. -/
theorem c7_load_amended :
    (∀ p : Profile, profileOfJson (loadProfile (saveProfile p)) = p) ∧
    loadProfile .absent = Json.obj [] ∧
    loadProfile .malformed = Json.obj [] ∧
    (∀ j : Json, loadProfile (.wellFormed j) = j) := by
  refine ⟨?_, rfl, rfl, fun j => rfl⟩
  intro p
  induction p with
  | nil => rfl
  | cons kv rest ih =>
    simpa [saveProfile, loadProfile, profileToJson, profileOfJson] using ih

/-! ### C10 — substring risk detection versus word-boundary highlighting -/

/-- C10: with the milk category selected, the ingredient text `"milky"`
triggers risk detection (substring match on `"milk"`) while the highlighter,
which requires word boundaries, returns the text without inserting any
marker. -/
theorem c10_substring_vs_word_boundary :
    (riskFor [("milk", true)]
      (some ⟨"p1", none, none, some "milky", none⟩)).hasRisk = true ∧
    "milk" ∈ (riskFor [("milk", true)]
      (some ⟨"p1", none, none, some "milky", none⟩)).hits ∧
    highlight "milky" (selectedLabels [("milk", true)]) = "milky" := by
  decide

/-! ### Supporting lemmas: deduplication pass of the product search -/

/-- The dedup pass yields a sublist of its input (upstream order kept). -/
theorem dedupByName_sublist :
    ∀ (l : List Product) (seen : List String), (dedupByName l seen).Sublist l := by
  intro l
  induction l with
  | nil => intro seen; simp [dedupByName]
  | cons p rest ih =>
    intro seen
    by_cases h : prodName p ≠ "" ∧ prodName p ∉ seen
    · simp only [dedupByName, if_pos h]
      exact (ih (prodName p :: seen)).cons₂ p
    · simp only [dedupByName, if_neg h]
      exact (ih seen).cons p

/-- Every product surviving the dedup pass has a non-empty name that was not
in the seen set. -/
theorem dedupByName_mem :
    ∀ (l : List Product) (seen : List String) (p : Product),
      p ∈ dedupByName l seen → prodName p ≠ "" ∧ prodName p ∉ seen := by
  intro l
  induction l with
  | nil => intro seen p hp; simp [dedupByName] at hp
  | cons x rest ih =>
    intro seen p hp
    by_cases h : prodName x ≠ "" ∧ prodName x ∉ seen
    · simp only [dedupByName, if_pos h] at hp
      rcases List.mem_cons.mp hp with rfl | hp
      · exact h
      · have := ih (prodName x :: seen) p hp
        exact ⟨this.1, fun hs => this.2 (List.mem_cons_of_mem _ hs)⟩
    · simp only [dedupByName, if_neg h] at hp
      exact ih seen p hp

/-- The display names surviving the dedup pass are pairwise distinct. -/
theorem dedupByName_names_nodup :
    ∀ (l : List Product) (seen : List String),
      ((dedupByName l seen).map prodName).Nodup := by
  intro l
  induction l with
  | nil => intro seen; simp [dedupByName]
  | cons x rest ih =>
    intro seen
    by_cases h : prodName x ≠ "" ∧ prodName x ∉ seen
    · simp only [dedupByName, if_pos h, List.map_cons, List.nodup_cons]
      refine ⟨?_, ih (prodName x :: seen)⟩
      intro hmem
      rcases List.mem_map.mp hmem with ⟨p, hp, hname⟩
      exact (dedupByName_mem rest _ p hp).2 (hname ▸ List.mem_cons_self _ _)
    · simp only [dedupByName, if_neg h]
      exact ih seen

/-- First occurrence wins: every survivor of the dedup pass is the first
element of the input list bearing its display name. -/
theorem dedupByName_first :
    ∀ (l : List Product) (seen : List String) (p : Product),
      p ∈ dedupByName l seen →
      l.find? (fun x => prodName x == prodName p) = some p := by
  intro l
  induction l with
  | nil => intro seen p hp; simp [dedupByName] at hp
  | cons x rest ih =>
    intro seen p hp
    by_cases h : prodName x ≠ "" ∧ prodName x ∉ seen
    · simp only [dedupByName, if_pos h] at hp
      rcases List.mem_cons.mp hp with rfl | hp
      · exact List.find?_cons_of_pos _ (by simp)
      · have hmem := dedupByName_mem rest _ p hp
        have hne : prodName x ≠ prodName p := by
          intro he
          exact hmem.2 (he ▸ List.mem_cons_self _ _)
        rw [List.find?_cons_of_neg _ (by simpa using hne)]
        exact ih (prodName x :: seen) p hp
    · simp only [dedupByName, if_neg h] at hp
      have hmem := dedupByName_mem rest seen p hp
      have hne : prodName x ≠ prodName p := by
        intro he
        rcases Decidable.not_and_iff_or_not.mp h with h1 | h2
        · exact hmem.1 (he ▸ Decidable.not_not.mp h1)
        · exact hmem.2 (he ▸ Decidable.not_not.mp h2)
      rw [List.find?_cons_of_neg _ (by simpa using hne)]
      exact ih seen p hp

/-! ### C4 — product search deduplication and cap -/

/-- C4: for every query and upstream result list, the returned products are
a sublist of the post-filtered candidates (upstream order preserved), their
display names are pairwise distinct, each returned product is the first
post-filtered candidate bearing its name (first occurrence wins), and at
most 5 results are returned; two upstream results with the same
`product_name` collapse to the first one. -/
theorem c4_search_dedup_cap :
    ∀ (q : String) (ps : List RawProduct),
      (searchResults q ps).length ≤ 5 ∧
      ((searchResults q ps).map prodName).Nodup ∧
      (searchResults q ps).Sublist (searchCandidates q ps) ∧
      (∀ p ∈ searchResults q ps,
        (searchCandidates q ps).find? (fun x => prodName x == prodName p) = some p) ∧
      searchResults "aa" [⟨"1", some "aa cookie", none, none, none⟩,
                          ⟨"2", some "aa cookie", some "b", none, none⟩] =
        [toProduct ⟨"1", some "aa cookie", none, none, none⟩] := by
  intro q ps
  by_cases hq : jsTrim q = ""
  · refine ⟨?_, ?_, ?_, ?_, by decide⟩ <;>
      simp [searchResults, if_pos hq]
  · simp only [searchResults, if_neg hq]
    refine ⟨?_, ?_, ?_, ?_, by decide⟩
    · rw [List.length_take]
      exact Nat.min_le_left 5 _
    · exact ((List.take_sublist 5 _).map prodName).nodup
        (dedupByName_names_nodup (searchCandidates q ps) [])
    · exact (List.take_sublist 5 _).trans (dedupByName_sublist _ [])
    · intro p hp
      exact dedupByName_first _ [] p (List.mem_of_mem_take hp)

/-- C4 witness: a concrete search with a duplicated display name, capped
well below five, whose single survivor is the first occurrence. -/
theorem c4_search_dedup_cap_witness :
    (searchResults "aa" [⟨"1", some "aa cookie", none, none, none⟩,
                         ⟨"2", some "aa cookie", some "b", none, none⟩]).length ≤ 5 ∧
    (searchCandidates "aa" [⟨"1", some "aa cookie", none, none, none⟩,
                            ⟨"2", some "aa cookie", some "b", none, none⟩]).find?
        (fun x => prodName x == prodName (toProduct ⟨"1", some "aa cookie", none, none, none⟩)) =
      some (toProduct ⟨"1", some "aa cookie", none, none, none⟩) :=
  ⟨(c4_search_dedup_cap "aa" [⟨"1", some "aa cookie", none, none, none⟩,
                              ⟨"2", some "aa cookie", some "b", none, none⟩]).1,
   (c4_search_dedup_cap "aa" [⟨"1", some "aa cookie", none, none, none⟩,
                              ⟨"2", some "aa cookie", some "b", none, none⟩]).2.2.2.1
      (toProduct ⟨"1", some "aa cookie", none, none, none⟩) (by decide)⟩

/-! ### Supporting definitions and lemmas: profile reachability -/

/-- Round trip of the profile store: a saved profile parses back to itself. -/
theorem profileOfJson_profileToJson :
    ∀ p : Profile, profileOfJson (profileToJson p) = p := by
  intro p
  induction p with
  | nil => rfl
  | cons kv rest ih => simpa [profileToJson, profileOfJson] using ih

/-- Well-formedness of a profile object: every key names one of the 12
catalog categories. -/
def ProfileOK (p : Profile) : Prop := ∀ kv ∈ p, kv.1 ∈ allergenKeys

/-- The persisted states the application itself produces: nothing stored
yet, a corrupted value, or a profile it previously saved. -/
def StoreOK (s : Persisted) : Prop :=
  s = .absent ∨ s = .malformed ∨ ∃ p0 : Profile, ProfileOK p0 ∧ s = saveProfile p0

/-- `setKey` introduces no key beyond the toggled one. -/
theorem setKey_mem :
    ∀ (p : Profile) (k : String) (b : Bool) (kv : String × Bool),
      kv ∈ setKey p k b → kv.1 = k ∨ kv ∈ p := by
  intro p k b
  induction p with
  | nil =>
    intro kv hkv
    simp only [setKey, List.mem_singleton] at hkv
    exact Or.inl (by rw [hkv])
  | cons x rest ih =>
    intro kv hkv
    by_cases hx : x.1 = k
    · simp only [setKey, if_pos hx] at hkv
      rcases List.mem_cons.mp hkv with rfl | hkv
      · exact Or.inl rfl
      · exact Or.inr (List.mem_cons_of_mem _ hkv)
    · simp only [setKey, if_neg hx] at hkv
      rcases List.mem_cons.mp hkv with rfl | hkv
      · exact Or.inr (List.mem_cons_self _ _)
      · rcases ih kv hkv with h | h
        · exact Or.inl h
        · exact Or.inr (List.mem_cons_of_mem _ h)

/-- The client profile states reachable through the application's own
operations: startup loads the persisted value (one the app can have left
behind), and the profile is then mutated only by per-category toggles,
Select All, and Deselect All — each mutation being saved, which keeps the
store within `StoreOK`. -/
inductive ReachableProfile : Profile → Prop where
  | startup (s : Persisted) (h : StoreOK s) :
      ReachableProfile (profileOfJson (loadProfile s))
  | toggle (p : Profile) (a : Allergen) (b : Bool)
      (hp : ReachableProfile p) (ha : a ∈ ALLERGENS) :
      ReachableProfile (setKey p a.key b)
  | selectAll (p : Profile) (hp : ReachableProfile p) :
      ReachableProfile selectAllAllergens
  | deselectAll (p : Profile) (hp : ReachableProfile p) :
      ReachableProfile deselectAllAllergens

/-! ### C8 — profile keys stay within the catalog -/

/-- C8: in every reachable client state the keys of the allergen profile are
drawn from the 12 catalog category identifiers; the invariant is preserved
by loading the persisted profile at startup, by per-category toggles, and by
Select All / Deselect All. -/
theorem c8_profile_keys_invariant :
    ∀ p : Profile, ReachableProfile p → ProfileOK p := by
  intro q hq
  induction hq with
  | startup s h =>
    rcases h with rfl | rfl | ⟨p0, hok, rfl⟩
    · intro kv hkv; simp [loadProfile, profileOfJson] at hkv
    · intro kv hkv; simp [loadProfile, profileOfJson] at hkv
    · intro kv hkv
      rw [show loadProfile (saveProfile p0) = profileToJson p0 from rfl,
        profileOfJson_profileToJson] at hkv
      exact hok kv hkv
  | toggle p a b hp ha ih =>
    intro kv hkv
    rcases setKey_mem p a.key b kv hkv with h | h
    · exact h ▸ List.mem_map.mpr ⟨a, ha, rfl⟩
    · exact ih kv h
  | selectAll p hp ih =>
    show ∀ kv ∈ selectAllAllergens, kv.1 ∈ allergenKeys
    decide
  | deselectAll p hp ih =>
    show ∀ kv ∈ deselectAllAllergens, kv.1 ∈ allergenKeys
    decide

/-- C8 witness: the Select All state, reached from an empty store, satisfies
the invariant. -/
theorem c8_profile_keys_invariant_witness : ProfileOK selectAllAllergens :=
  c8_profile_keys_invariant selectAllAllergens
    (ReachableProfile.selectAll (profileOfJson (loadProfile .absent))
      (ReachableProfile.startup .absent (Or.inl rfl)))

/-! ### Supporting lemmas: keyword detection -/

/-- A product carrying only an ingredient text. -/
def ingredientsProduct (t : String) : Product :=
  { code := "", product_name := none, brands := none,
    ingredients_text := some t, allergens_tags := none }

/-- `riskFor` reads the ingredient text only through `toLowerCase`, so texts
with the same lower-casing are indistinguishable to it. -/
theorem riskFor_lower_congr (profile : Profile) (t1 t2 : String)
    (h : jsToLower t1 = jsToLower t2) :
    riskFor profile (some (ingredientsProduct t1)) =
      riskFor profile (some (ingredientsProduct t2)) := by
  simp only [riskFor, ingredientsProduct, Option.getD_some]
  simp only [h]

/-- Checked fact over the whole catalog: every keyword variant is already
lower-case, and an ingredient text equal to the variant, with exactly its
category selected, is flagged with the variant among the hits. -/
theorem allergen_keyword_master :
    ∀ a ∈ ALLERGENS, ∀ lbl ∈ a.labels,
      jsToLower lbl = lbl ∧
      (riskFor [(a.key, true)] (some (ingredientsProduct lbl))).hasRisk = true ∧
      lbl ∈ (riskFor [(a.key, true)] (some (ingredientsProduct lbl))).hits := by
  decide

/-! ### C5 — every catalog keyword is detected case-insensitively -/

/-- C5: for every catalog category and every keyword variant of it, a
product whose ingredient text is that keyword in any letter case (any text
lower-casing to the variant), checked against a profile selecting that
category, reports a risk and lists the keyword among the hits. -/
theorem c5_allergen_keyword_detection :
    ∀ a ∈ ALLERGENS, ∀ lbl ∈ a.labels, ∀ text : String,
      jsToLower text = lbl →
      (riskFor [(a.key, true)] (some (ingredientsProduct text))).hasRisk = true ∧
      lbl ∈ (riskFor [(a.key, true)] (some (ingredientsProduct text))).hits := by
  intro a ha lbl hl text ht
  obtain ⟨hlow, h1, h2⟩ := allergen_keyword_master a ha lbl hl
  have hcong := riskFor_lower_congr [(a.key, true)] text lbl (by rw [ht, hlow])
  rw [hcong]
  exact ⟨h1, h2⟩

/-- C5 witness: the ingredient text `"WHEY"` with the milk category selected
is flagged, with `"whey"` among the hits. -/
theorem c5_allergen_keyword_detection_witness :
    (riskFor [("milk", true)]
      (some (ingredientsProduct "WHEY"))).hasRisk = true ∧
    "whey" ∈ (riskFor [("milk", true)]
      (some (ingredientsProduct "WHEY"))).hits :=
  c5_allergen_keyword_detection
    ⟨"milk", ["milk", "dairy", "casein", "whey", "lactose"]⟩ (by decide)
    "whey" (by decide) "WHEY" (by decide)

/-! ### Supporting lemmas: cache state after a miss -/

/-- Deleting a key removes it from the cache. -/
theorem cacheLookup_erase_self :
    ∀ (c : Cache) (k : String), cacheLookup (cacheErase c k) k = none := by
  intro c k
  induction c with
  | nil => rfl
  | cons kv rest ih =>
    by_cases hkv : kv.1 = k
    · simp only [cacheErase, if_pos hkv]
      exact ih
    · simp only [cacheErase, if_neg hkv, cacheLookup]
      exact ih

/-- `cacheGet` leaves the cache alone or deletes exactly the probed key. -/
theorem cacheGet_snd {c c1 : Cache} {k : String} {now : Nat} {r : Option NutritionOut}
    (h : cacheGet c k now = (r, c1)) : c1 = c ∨ c1 = cacheErase c k := by
  cases hl : cacheLookup c k with
  | none =>
    simp only [cacheGet, hl] at h
    injection h with h1 h2
    exact Or.inl h2.symm
  | some v =>
    simp only [cacheGet, hl] at h
    by_cases ht : now - v.t > 5 * 60 * 1000
    · rw [if_pos ht] at h
      injection h with h1 h2
      exact Or.inr h2.symm
    · rw [if_neg ht] at h
      injection h with h1 h2
      exact Or.inl h2.symm

/-- After a `cacheGet` miss the probed key is absent from the resulting
cache (it was either never there or has just been evicted). -/
theorem cacheGet_miss_lookup {c c1 : Cache} {k : String} {now : Nat}
    (h : cacheGet c k now = (none, c1)) : cacheLookup c1 k = none := by
  cases hl : cacheLookup c k with
  | none =>
    simp only [cacheGet, hl] at h
    injection h with h1 h2
    rw [← h2]
    exact hl
  | some v =>
    simp only [cacheGet, hl] at h
    by_cases ht : now - v.t > 5 * 60 * 1000
    · rw [if_pos ht] at h
      injection h with h1 h2
      rw [← h2]
      exact cacheLookup_erase_self c k
    · rw [if_neg ht] at h
      injection h with h1 h2
      exact Option.noConfusion h1

/-! ### C9 — the cache is only written on success -/

/-- C9 counterexample: an error response can still change the cache.  With
an expired entry under the request's key, a 404 lookup evicts that entry:
the cache after the error differs from the cache before, refuting "the
cache is unchanged on error". -/
theorem c9_error_evicts_expired_entry :
    (nutritionHandler "K" { name := some "x", brand := none }
      [("USDA::x", ⟨⟨"usda", "generic", "100 g", 1, 2, 3, ""⟩, 0⟩)] 300001
      (some []) (fun _ => none)).resp = Resp.err 404 "not_found" ∧
    (nutritionHandler "K" { name := some "x", brand := none }
      [("USDA::x", ⟨⟨"usda", "generic", "100 g", 1, 2, 3, ""⟩, 0⟩)] 300001
      (some []) (fun _ => none)).cache = [] ∧
    ([] : Cache) ≠ [("USDA::x", ⟨⟨"usda", "generic", "100 g", 1, 2, 3, ""⟩, 0⟩)] := by
  decide

/-- C9 (amended): on any error response (400, 404 or 500) the route writes
no cache entry — the resulting cache is the original one, except that an
expired entry under the request's own key may have been evicted — and a
subsequent identical request is never served from the cache (it re-runs the
full lookup). -/
theorem c9_no_write_on_error :
    ∀ (key : String) (body : ReqBody) (cache : Cache) (now : Nat)
      (sr : Option (List Food)) (dr : Nat → Option FoodDetail),
      (nutritionHandler key body cache now sr dr).resp.isErr = true →
      ((nutritionHandler key body cache now sr dr).cache = cache ∨
       (nutritionHandler key body cache now sr dr).cache =
         cacheErase cache (cacheKeyOf body)) ∧
      (∀ (now2 : Nat) (sr2 : Option (List Food)) (dr2 : Nat → Option FoodDetail),
        (nutritionHandler key body
          (nutritionHandler key body cache now sr dr).cache now2 sr2 dr2).servedFromCache
          = false) := by
  intro key body cache now sr dr
  by_cases hk : key = ""
  · intro _
    constructor
    · left
      simp [nutritionHandler, hk]
    · intro now2 sr2 dr2
      simp [nutritionHandler, hk]
  · by_cases hn : reqName body = ""
    · intro _
      constructor
      · left
        simp only [nutritionHandler, if_neg hk, hn]
        rw [if_pos trivial]
      · intro now2 sr2 dr2
        simp only [nutritionHandler, if_neg hk, hn]
        rw [if_pos trivial]
    · rcases hget : cacheGet cache (cacheKeyOf body) now with ⟨ro, c1⟩
      cases ro with
      | some data =>
        intro herr
        exfalso
        have hok2 : nutritionHandler key body cache now sr dr =
            { resp := .ok data, cache := c1,
              upstreamCalled := false, servedFromCache := true } := by
          simp only [nutritionHandler, if_neg hk, if_neg hn, hget]
        rw [hok2] at herr
        exact Bool.noConfusion herr
      | none =>
        intro herr
        have hc1 := cacheGet_snd hget
        have hlook := cacheGet_miss_lookup hget
        have hmiss : ∀ (now2 : Nat) (sr2 : Option (List Food))
            (dr2 : Nat → Option FoodDetail),
            (nutritionHandler key body c1 now2 sr2 dr2).servedFromCache = false :=
          fun now2 sr2 dr2 =>
            (nutritionHandler_miss_flags hk hn (cacheGet_absent hlook)).2
        have hRc : (nutritionHandler key body cache now sr dr).resp.isErr = true →
            (nutritionHandler key body cache now sr dr).cache = c1 := by
          simp only [nutritionHandler, if_neg hk, if_neg hn, hget]
          cases sr with
          | none => intro _; rfl
          | some hits =>
            cases hits with
            | nil => intro _; rfl
            | cons h t =>
              dsimp only
              split
              · intro _; rfl
              · intro hfalse
                exact Bool.noConfusion hfalse
        have hcache := hRc herr
        rw [hcache]
        exact ⟨hc1, hmiss⟩

/-- C9 witness: after a 404 on an empty cache, nothing is written and the
identical retry is again not served from the cache. -/
theorem c9_no_write_on_error_witness :
    ((nutritionHandler "K" { name := some "x", brand := none } [] 7
        (some []) (fun _ => none)).cache = ([] : Cache) ∨
     (nutritionHandler "K" { name := some "x", brand := none } [] 7
        (some []) (fun _ => none)).cache =
       cacheErase [] (cacheKeyOf { name := some "x", brand := none })) ∧
    (nutritionHandler "K" { name := some "x", brand := none }
      (nutritionHandler "K" { name := some "x", brand := none } [] 7
        (some []) (fun _ => none)).cache 8 (some []) (fun _ => none)).servedFromCache
      = false :=
  ⟨(c9_no_write_on_error "K" { name := some "x", brand := none } [] 7
      (some []) (fun _ => none) (by decide)).1,
   (c9_no_write_on_error "K" { name := some "x", brand := none } [] 7
      (some []) (fun _ => none) (by decide)).2 8 (some []) (fun _ => none)⟩

/-! ### Supporting lemmas: the highlighter's match structure -/

/-- A successful literal match splits the input and equals the pattern up to
letter case. -/
theorem matchLit_spec :
    ∀ (ps cs m r : List Char), matchLit ps cs = some (m, r) →
      cs = m ++ r ∧ m.map Char.toLower = ps.map Char.toLower := by
  intro ps
  induction ps with
  | nil =>
    intro cs m r h
    simp only [matchLit] at h
    injection h with h1
    injection h1 with hm hr
    subst hm
    subst hr
    exact ⟨rfl, rfl⟩
  | cons p ps2 ih =>
    intro cs m r h
    cases cs with
    | nil => simp [matchLit] at h
    | cons c cs2 =>
      simp only [matchLit] at h
      by_cases hc : c.toLower = p.toLower
      · rw [if_pos hc] at h
        cases hml : matchLit ps2 cs2 with
        | none => rw [hml] at h; exact Option.noConfusion h
        | some mr =>
          obtain ⟨m2, r2⟩ := mr
          rw [hml] at h
          injection h with h1
          injection h1 with hm hr
          subst hm
          subst hr
          obtain ⟨ha, hb⟩ := ih cs2 m2 r2 hml
          exact ⟨by rw [ha]; rfl, by simp [hc, hb]⟩
      · rw [if_neg hc] at h
        exact Option.noConfusion h

/-- A successful alternation match splits the input and equals one of the
alternatives up to letter case. -/
theorem matchAlts_spec :
    ∀ (alts : List (List Char)) (prev : Option Char) (cs m r : List Char),
      matchAlts alts prev cs = some (m, r) →
      cs = m ++ r ∧ ∃ a ∈ alts, m.map Char.toLower = a.map Char.toLower := by
  intro alts
  induction alts with
  | nil => intro prev cs m r h; simp [matchAlts] at h
  | cons a rest ih =>
    intro prev cs m r h
    simp only [matchAlts] at h
    cases hml : matchLit a cs with
    | none =>
      rw [hml] at h
      obtain ⟨h1, a2, ha2, h3⟩ := ih prev cs m r h
      exact ⟨h1, a2, List.mem_cons_of_mem _ ha2, h3⟩
    | some mr =>
      obtain ⟨m2, r2⟩ := mr
      simp only [hml] at h
      by_cases hb : boundary (endPrev prev m2) r2.head? = true
      · rw [if_pos hb] at h
        injection h with h1
        injection h1 with hm hr
        subst hm
        subst hr
        obtain ⟨ha, hci⟩ := matchLit_spec a cs m2 r2 hml
        exact ⟨ha, a, List.mem_cons_self _ _, hci⟩
      · rw [if_neg hb] at h
        obtain ⟨h1, a2, ha2, h3⟩ := ih prev cs m r h
        exact ⟨h1, a2, List.mem_cons_of_mem _ ha2, h3⟩

/-- A successful whole-pattern match splits the input and equals one of the
alternatives up to letter case. -/
theorem matchHere_spec {alts : List (List Char)} {prev : Option Char}
    {cs m r : List Char} (h : matchHere alts prev cs = some (m, r)) :
    cs = m ++ r ∧ ∃ a ∈ alts, m.map Char.toLower = a.map Char.toLower := by
  unfold matchHere at h
  by_cases hb : boundary prev cs.head? = true
  · rw [if_pos hb] at h
    exact matchAlts_spec alts prev cs m r h
  · rw [if_neg hb] at h
    exact Option.noConfusion h

/-- Character preservation of the global replace: concatenating the scan
pieces (ignoring the markers) gives back exactly the input characters. -/
theorem hlScan_join :
    ∀ (fuel : Nat) (alts : List (List Char)) (prev : Option Char) (cs : List Char),
      cs.length < fuel →
      ((hlScan fuel alts prev cs).map Prod.snd).flatten = cs := by
  intro fuel
  induction fuel with
  | zero => intro alts prev cs h; exact absurd h (Nat.not_lt_zero _)
  | succ fuel ih =>
    intro alts prev cs hlen
    cases hm : matchHere alts prev cs with
    | none =>
      simp only [hlScan, hm]
      cases cs with
      | nil => simp
      | cons c rest =>
        have hr : rest.length < fuel := by
          simp only [List.length_cons] at hlen
          omega
        simp [ih alts (some c) rest hr]
    | some mr =>
      obtain ⟨m, r⟩ := mr
      have hspec := matchHere_spec hm
      cases m with
      | nil =>
        simp only [hlScan, hm]
        cases cs with
        | nil => simp
        | cons c rest =>
          have hr : rest.length < fuel := by
            simp only [List.length_cons] at hlen
            omega
          simp [ih alts (some c) rest hr]
      | cons m1 ms =>
        simp only [hlScan, hm]
        have hcs : cs = (m1 :: ms) ++ r := hspec.1
        have hr : r.length < fuel := by
          rw [hcs] at hlen
          simp only [List.length_append, List.length_cons] at hlen
          omega
        simp [ih alts (endPrev prev (m1 :: ms)) r hr, hcs]

/-- Soundness of the markers: every marked scan piece is, up to letter
case, one of the pattern alternatives. -/
theorem hlScan_marked :
    ∀ (fuel : Nat) (alts : List (List Char)) (prev : Option Char) (cs : List Char)
      (p : Bool × List Char),
      p ∈ hlScan fuel alts prev cs → p.1 = true →
      ∃ a ∈ alts, p.2.map Char.toLower = a.map Char.toLower := by
  intro fuel
  induction fuel with
  | zero => intro alts prev cs p hp _; simp [hlScan] at hp
  | succ fuel ih =>
    intro alts prev cs p hp htrue
    cases hm : matchHere alts prev cs with
    | none =>
      simp only [hlScan, hm] at hp
      cases cs with
      | nil => simp at hp
      | cons c rest =>
        rcases List.mem_cons.mp hp with rfl | hp2
        · exact absurd htrue (by simp)
        · exact ih alts (some c) rest p hp2 htrue
    | some mr =>
      obtain ⟨m, r⟩ := mr
      have hspec := matchHere_spec hm
      cases m with
      | nil =>
        simp only [hlScan, hm] at hp
        rcases List.mem_cons.mp hp with rfl | hp2
        · obtain ⟨a, ha, hci⟩ := hspec.2
          exact ⟨a, ha, hci⟩
        · cases cs with
          | nil => simp at hp2
          | cons c rest =>
            rcases List.mem_cons.mp hp2 with rfl | hp3
            · exact absurd htrue (by simp)
            · exact ih alts (some c) rest p hp3 htrue
      | cons m1 ms =>
        simp only [hlScan, hm] at hp
        rcases List.mem_cons.mp hp with rfl | hp2
        · obtain ⟨a, ha, hci⟩ := hspec.2
          exact ⟨a, ha, hci⟩
        · exact ih alts (endPrev prev (m1 :: ms)) r p hp2 htrue


/-! ### Supporting lemmas: occurrences and the exactness of the scan -/

/-- `endPrev` of the empty consumed text is the incoming context. -/
theorem endPrev_nil (p : Option Char) : endPrev p [] = p := rfl

/-- Consuming one character updates the left context to that character. -/
theorem endPrev_cons (p : Option Char) (c : Char) (l : List Char) :
    endPrev p (c :: l) = endPrev (some c) l := by
  cases l with
  | nil => rfl
  | cons d l2 =>
    simp only [endPrev, List.getLast?_cons_cons]
    cases h : (d :: l2).getLast? with
    | some e => rfl
    | none => exact absurd (List.getLast?_eq_none_iff.mp h) (List.cons_ne_nil d l2)

/-- The left context after consuming `l1 ++ l2` is reached in two steps. -/
theorem endPrev_append (p : Option Char) (l1 l2 : List Char) :
    endPrev p (l1 ++ l2) = endPrev (endPrev p l1) l2 := by
  induction l1 generalizing p with
  | nil => rfl
  | cons c l1' ih => rw [List.cons_append, endPrev_cons, ih, endPrev_cons]

/-- A string with no characters is the empty string. -/
theorem string_toList_nil (n : String) (h : n.toList = []) : n = "" := by
  cases n with
  | mk data =>
    simp only [String.toList] at h
    subst h
    rfl

/-- Completeness of the literal matcher: a case-insensitive copy of the
pattern at the head of the input is matched, consuming exactly it. -/
theorem matchLit_complete :
    ∀ (ps m r : List Char), m.map Char.toLower = ps.map Char.toLower →
      matchLit ps (m ++ r) = some (m, r) := by
  intro ps
  induction ps with
  | nil =>
    intro m r hm
    simp only [List.map_nil, List.map_eq_nil_iff] at hm
    subst hm
    rfl
  | cons p ps2 ih =>
    intro m r hm
    cases m with
    | nil => simp at hm
    | cons c m2 =>
      simp only [List.map_cons, List.cons.injEq] at hm
      obtain ⟨h1, h2⟩ := hm
      simp only [List.cons_append, matchLit, if_pos h1, List.append_eq, ih m2 r h2]

/-- A successful alternation match ends at a word boundary (the trailing
`\b` of the pattern). -/
theorem matchAlts_boundary :
    ∀ (alts : List (List Char)) (prev : Option Char) (cs m r : List Char),
      matchAlts alts prev cs = some (m, r) →
      boundary (endPrev prev m) r.head? = true := by
  intro alts
  induction alts with
  | nil => intro prev cs m r h; simp [matchAlts] at h
  | cons a rest ih =>
    intro prev cs m r h
    simp only [matchAlts] at h
    cases hml : matchLit a cs with
    | none =>
      rw [hml] at h
      exact ih prev cs m r h
    | some mr =>
      obtain ⟨m2, r2⟩ := mr
      simp only [hml] at h
      by_cases hb : boundary (endPrev prev m2) r2.head? = true
      · rw [if_pos hb] at h
        injection h with h1
        injection h1 with hm2 hr2
        subst hm2
        subst hr2
        exact hb
      · rw [if_neg hb] at h
        exact ih prev cs m r h

/-- A successful whole-pattern match sits between word boundaries: the
leading `\b` holds where it starts and the trailing `\b` where it ends. -/
theorem matchHere_boundary {alts : List (List Char)} {prev : Option Char}
    {cs m r : List Char} (h : matchHere alts prev cs = some (m, r)) :
    boundary prev cs.head? = true ∧ boundary (endPrev prev m) r.head? = true := by
  unfold matchHere at h
  by_cases hb : boundary prev cs.head? = true
  · rw [if_pos hb] at h
    exact ⟨hb, matchAlts_boundary alts prev cs m r h⟩
  · rw [if_neg hb] at h
    exact Option.noConfusion h

/-- When the alternation fails, no alternative has a case-insensitive copy
at the head of the input followed by a word boundary. -/
theorem matchAlts_none :
    ∀ (alts : List (List Char)) (prev : Option Char) (cs : List Char),
      matchAlts alts prev cs = none →
      ∀ a ∈ alts, ∀ m r, cs = m ++ r → m.map Char.toLower = a.map Char.toLower →
        boundary (endPrev prev m) r.head? = false := by
  intro alts
  induction alts with
  | nil => intro prev cs h a ha; simp at ha
  | cons a0 rest ih =>
    intro prev cs h a ha m r hcs hci
    simp only [matchAlts] at h
    cases hml : matchLit a0 cs with
    | none =>
      rw [hml] at h
      rcases List.mem_cons.mp ha with rfl | ha2
      · rw [hcs, matchLit_complete a m r hci] at hml
        exact Option.noConfusion hml
      · exact ih prev cs h a ha2 m r hcs hci
    | some mr =>
      obtain ⟨m2, r2⟩ := mr
      simp only [hml] at h
      by_cases hb : boundary (endPrev prev m2) r2.head? = true
      · rw [if_pos hb] at h
        exact Option.noConfusion h
      · rw [if_neg hb] at h
        rcases List.mem_cons.mp ha with rfl | ha2
        · rw [hcs, matchLit_complete a m r hci] at hml
          injection hml with h1
          injection h1 with hm2 hr2
          subst hm2
          subst hr2
          simpa using hb
        · exact ih prev cs h a ha2 m r hcs hci

/-- The occurrence predicate of the spec: given the character just left of
a position, `m` is a wrappable span there when it is a case-insensitive
copy of one of the keywords and the `\b` assertion holds at both of its
ends (`after` being the text that follows it). -/
def IsOccurrence (needles : List String) (before : Option Char)
    (m after : List Char) : Prop :=
  (∃ n ∈ needles, m.map Char.toLower = n.toList.map Char.toLower) ∧
  boundary before (m ++ after).head? = true ∧
  boundary (endPrev before m) after.head? = true

/-- Some case-insensitive word-boundary keyword occurrence starts at the
position whose remaining text is `cs` and whose left neighbour is
`before`. -/
def OccursAt (needles : List String) (before : Option Char)
    (cs : List Char) : Prop :=
  ∃ m after, cs = m ++ after ∧ IsOccurrence needles before m after

/-- When the whole pattern fails at a position, no keyword occurrence
starts there. -/
theorem matchHere_none_no_occurrence {needles : List String}
    {prev : Option Char} {cs : List Char}
    (h : matchHere (needles.map (fun n => n.toList)) prev cs = none) :
    ¬ OccursAt needles prev cs := by
  rintro ⟨m, after, rfl, ⟨n, hn, hci⟩, hb1, hb2⟩
  unfold matchHere at h
  rw [if_pos hb1] at h
  have hf := matchAlts_none _ prev (m ++ after) h n.toList
    (List.mem_map.mpr ⟨n, hn, rfl⟩) m after rfl hci
  rw [hb2] at hf
  exact Bool.noConfusion hf

/-- Exactness of the global replace scan. For a keyword list containing no
empty keyword, in the piece decomposition the scan produces:
* every marked piece is a keyword occurrence at its position — a
  case-insensitive copy of a keyword with the `\b` assertion holding at
  both of its ends (the left context being the last character of the text
  already consumed, or the incoming context when none was);
* every unmarked piece is a single copied character at whose position no
  keyword occurrence starts. -/
theorem hlScan_exact :
    ∀ (fuel : Nat) (needles : List String) (prev : Option Char) (cs : List Char),
      cs.length < fuel → "" ∉ needles →
      (∀ pre m post,
        hlScan fuel (needles.map (fun n => n.toList)) prev cs =
          pre ++ (true, m) :: post →
        IsOccurrence needles (endPrev prev ((pre.map Prod.snd).flatten)) m
          ((post.map Prod.snd).flatten)) ∧
      (∀ pre seg post,
        hlScan fuel (needles.map (fun n => n.toList)) prev cs =
          pre ++ (false, seg) :: post →
        seg.length = 1 ∧
        ¬ OccursAt needles (endPrev prev ((pre.map Prod.snd).flatten))
          (seg ++ ((post.map Prod.snd).flatten))) := by
  intro fuel
  induction fuel with
  | zero => intro needles prev cs hlen hne; exact absurd hlen (Nat.not_lt_zero _)
  | succ fuel ih =>
    intro needles prev cs hlen hne
    cases hm : matchHere (needles.map (fun n => n.toList)) prev cs with
    | none =>
      cases cs with
      | nil =>
        constructor
        · intro pre m post heq
          simp only [hlScan, hm] at heq
          exact absurd heq (by simp)
        · intro pre seg post heq
          simp only [hlScan, hm] at heq
          exact absurd heq (by simp)
      | cons c rest =>
        have hrest : rest.length < fuel := by
          simp only [List.length_cons] at hlen
          omega
        have hctx : ∀ pre' : List (Bool × List Char),
            endPrev prev ((((false, [c]) :: pre').map Prod.snd).flatten)
              = endPrev (some c) ((pre'.map Prod.snd).flatten) := by
          intro pre'
          simp only [List.map_cons, List.flatten_cons]
          rw [endPrev_append]
          rfl
        constructor
        · intro pre m post heq
          simp only [hlScan, hm] at heq
          cases pre with
          | nil =>
            injection heq with h1 h2
            injection h1 with hb hs
            exact Bool.noConfusion hb
          | cons p0 pre' =>
            injection heq with h1 h2
            subst h1
            rw [hctx pre']
            exact (ih needles (some c) rest hrest hne).1 pre' m post h2
        · intro pre seg post heq
          simp only [hlScan, hm] at heq
          cases pre with
          | nil =>
            injection heq with h1 h2
            injection h1 with hb hs
            subst hs
            refine ⟨rfl, ?_⟩
            have hpost : ((post.map Prod.snd).flatten) = rest := by
              rw [← h2]
              exact hlScan_join fuel _ (some c) rest hrest
            rw [hpost]
            exact matchHere_none_no_occurrence hm
          | cons p0 pre' =>
            injection heq with h1 h2
            subst h1
            rw [hctx pre']
            exact (ih needles (some c) rest hrest hne).2 pre' seg post h2
    | some mr =>
      obtain ⟨m0, r⟩ := mr
      cases m0 with
      | nil =>
        exfalso
        obtain ⟨-, a, ha, hci⟩ := matchHere_spec hm
        have ha0 : a = [] := by simpa using hci.symm
        subst ha0
        obtain ⟨n, hn, hn0⟩ := List.mem_map.mp ha
        have : n = "" := string_toList_nil n (by simpa using hn0)
        exact hne (this ▸ hn)
      | cons m1 ms =>
        have hspec := matchHere_spec hm
        have hbd := matchHere_boundary hm
        have hcs : cs = (m1 :: ms) ++ r := hspec.1
        have hrlen : r.length < fuel := by
          rw [hcs] at hlen
          simp only [List.length_append, List.length_cons] at hlen
          omega
        have hctx : ∀ pre' : List (Bool × List Char),
            endPrev prev ((((true, m1 :: ms) :: pre').map Prod.snd).flatten)
              = endPrev (endPrev prev (m1 :: ms)) ((pre'.map Prod.snd).flatten) := by
          intro pre'
          simp only [List.map_cons, List.flatten_cons]
          rw [endPrev_append]
        constructor
        · intro pre m post heq
          simp only [hlScan, hm] at heq
          cases pre with
          | nil =>
            injection heq with h1 h2
            injection h1 with hb hs
            subst hs
            have hpost : ((post.map Prod.snd).flatten) = r := by
              rw [← h2]
              exact hlScan_join fuel _ (endPrev prev (m1 :: ms)) r hrlen
            rw [hpost]
            refine ⟨?_, ?_, hbd.2⟩
            · obtain ⟨a, ha, hci⟩ := hspec.2
              obtain ⟨n, hn, rfl⟩ := List.mem_map.mp ha
              exact ⟨n, hn, hci⟩
            · exact hcs ▸ hbd.1
          | cons p0 pre' =>
            injection heq with h1 h2
            subst h1
            rw [hctx pre']
            exact (ih needles (endPrev prev (m1 :: ms)) r hrlen hne).1 pre' m post h2
        · intro pre seg post heq
          simp only [hlScan, hm] at heq
          cases pre with
          | nil =>
            injection heq with h1 h2
            injection h1 with hb hs
            exact Bool.noConfusion hb
          | cons p0 pre' =>
            injection heq with h1 h2
            subst h1
            rw [hctx pre']
            exact (ih needles (endPrev prev (m1 :: ms)) r hrlen hne).2 pre' seg post h2

/-! ### C6 — the highlighter -/

/-- C6 counterexample: an empty keyword list does not leave the text
unchanged.  Joining zero needles yields the pattern `\b()\b`, whose empty
alternative matches at every word boundary, so `highlight("a", [])` inserts
an empty marker before and after the word. -/
theorem c6_empty_needles_not_identity :
    highlight "a" [] =
      "<mark style=\"background:#ffcccc\"></mark>a<mark style=\"background:#ffcccc\"></mark>" ∧
    highlight "a" [] ≠ "a" := by
  decide

/-- C6 (amended): empty input text yields empty output, and for every text
and every keyword list that is non-empty and contains no empty keyword the
output wraps exactly the case-insensitive word-boundary keyword occurrences
found by the left-to-right scan and leaves all other characters unchanged:
the output is rendered from a piece decomposition whose concatenation
restores the input text in order, in which every marked piece is a
case-insensitive copy of a keyword with the word-boundary assertion holding
at both of its ends (`IsOccurrence`, with the piece's actual left-context
character), and every unmarked piece is a single character at whose
position no word-boundary keyword occurrence starts (`OccursAt`) — matches
are found scanning left to right and do not overlap, so an occurrence
beginning inside an already wrapped span is not wrapped again.  In
particular `highlight("Contains milk and soy", ["milk"])` marks exactly the
`milk` occurrence.  An empty keyword list, however, does not leave the text
unchanged: it wraps an empty match at every word boundary. -/
theorem c6_highlight_amended :
    (∀ needles : List String, highlight "" needles = "") ∧
    highlight "Contains milk and soy" ["milk"] =
      "Contains <mark style=\"background:#ffcccc\">milk</mark> and soy" ∧
    (∀ (text : String) (needles : List String),
      text ≠ "" → needles ≠ [] → "" ∉ needles →
      ∃ pieces : List (Bool × List Char),
        highlight text needles = String.mk (renderPieces pieces) ∧
        (pieces.map Prod.snd).flatten = text.toList ∧
        (∀ pre m post, pieces = pre ++ (true, m) :: post →
          IsOccurrence needles (endPrev none ((pre.map Prod.snd).flatten)) m
            ((post.map Prod.snd).flatten)) ∧
        (∀ pre seg post, pieces = pre ++ (false, seg) :: post →
          seg.length = 1 ∧
          ¬ OccursAt needles (endPrev none ((pre.map Prod.snd).flatten))
            (seg ++ ((post.map Prod.snd).flatten)))) ∧
    highlight "a" [] =
      "<mark style=\"background:#ffcccc\"></mark>a<mark style=\"background:#ffcccc\"></mark>" := by
  refine ⟨fun needles => rfl, by decide, ?_, by decide⟩
  intro text needles htext hneedles hnempty
  cases needles with
  | nil => exact absurd rfl hneedles
  | cons n0 ns =>
    refine ⟨hlScan (text.toList.length + 1) ((n0 :: ns).map (fun n => n.toList))
      none text.toList, ?_, ?_, ?_, ?_⟩
    · simp only [highlight, if_neg htext, List.isEmpty_cons, Bool.false_eq_true,
        if_false]
    · exact hlScan_join _ _ none text.toList (Nat.lt_succ_self _)
    · exact (hlScan_exact _ (n0 :: ns) none text.toList (Nat.lt_succ_self _)
        hnempty).1
    · exact (hlScan_exact _ (n0 :: ns) none text.toList (Nat.lt_succ_self _)
        hnempty).2

/-- C6 witness: the exact decomposition at the claim's own example — the
text `"Contains milk and soy"` with the keyword list `["milk"]`. -/
theorem c6_highlight_amended_witness :
    ∃ pieces : List (Bool × List Char),
      highlight "Contains milk and soy" ["milk"] =
        String.mk (renderPieces pieces) ∧
      (pieces.map Prod.snd).flatten = "Contains milk and soy".toList ∧
      (∀ pre m post, pieces = pre ++ (true, m) :: post →
        IsOccurrence ["milk"] (endPrev none ((pre.map Prod.snd).flatten)) m
          ((post.map Prod.snd).flatten)) ∧
      (∀ pre seg post, pieces = pre ++ (false, seg) :: post →
        seg.length = 1 ∧
        ¬ OccursAt ["milk"] (endPrev none ((pre.map Prod.snd).flatten))
          (seg ++ ((post.map Prod.snd).flatten))) :=
  c6_highlight_amended.2.2.1 "Contains milk and soy" ["milk"]
    (by decide) (by decide) (by decide)
